import Mathlib

/-!
Shallow embedding of `src/llm_code_context/file_selector.py`.

The program enumerates files under a project root while honouring
`.gitignore`-style exclusion rules collected from the tree.  The gitignore
pattern engine itself (the `pathspec` library's `GitIgnoreSpec`) is an
external collaborator, so it is modelled abstractly: a compiled spec keeps
its raw pattern lines together with an arbitrary matching function, and the
compiler `engine : List String → String → Bool` is a parameter.

The filesystem is modelled as a finite tree.  Files carry their content and
a readability flag; directories carry their children (in listing order) and
a listability flag, which lets us model `OSError` from `open`/`os.listdir`
and the error-swallowing behaviour of `os.walk`.
-/

/-- Errors of the embedded program: the `assert` in the two `ignore` methods
(a contract violation) and filesystem `OSError`s. -/
inductive PyError where
  | contractViolation : PyError
  | ioError : PyError
deriving DecidableEq, Repr

/-- A node of the modelled filesystem.  `file name content readable` is a
non-directory entry; `dir name children listable` is a directory whose
children appear in `os.listdir`/`os.scandir` order.  `readable = false`
means `open` raises `OSError`; `listable = false` means listing the
directory raises `OSError`. -/
inductive FSEntry where
  | file (name : String) (content : String) (readable : Bool) : FSEntry
  | dir (name : String) (children : List FSEntry) (listable : Bool) : FSEntry

/-- The entry's name, as returned by `os.listdir`. -/
def FSEntry.name : FSEntry → String
  | .file n _ _ => n
  | .dir n _ _ => n

/-- Models `os.path.isdir` on the entry's path. -/
def FSEntry.isDir : FSEntry → Bool
  | .file _ _ _ => false
  | .dir _ _ _ => true

/-- Python's `str.startswith`, character by character.  (Structurally
recursive, unlike `String.startsWith`, so concrete registries evaluate by
`decide`; the two agree on every input.) -/
def strStartsWith (s pre : String) : Bool :=
  go s.data pre.data
where
  /-- Prefix test on the character lists. -/
  go : List Char → List Char → Bool
  | _, [] => true
  | [], _ :: _ => false
  | c :: cs, p :: ps => c == p && go cs ps

/-- Whether the string's last character is the path separator, the test
`os.path.join` performs on its first argument. -/
def endsWithSlash (a : String) : Bool :=
  a.data.getLast? == some '/'

/-- Models `os.path.join a b` for a relative `b` (the only case the program
exercises): `""` joined with `b` is `b`, a trailing separator is not
doubled, otherwise a `/` is inserted.  In particular
`osPathJoin "." b = "./" ++ b`, exactly as in Python. -/
def osPathJoin (a b : String) : String :=
  if a = "" then b
  else if endsWithSlash a then a ++ b
  else a ++ "/" ++ b

/-- Models `os.path.relpath (os.path.join cd name) root` given that
`rc = os.path.relpath cd root`: `relpath` normalises away the leading
`"."`, so the child of the root gets relative path `name`, and deeper
children get `rc ++ "/" ++ name`. -/
def relpathOfChild (rc name : String) : String :=
  if rc = "." then name else rc ++ "/" ++ name

/-- The ignore-query string the traversal submits for a directory entry:
the literal f-string `f"/{os.path.join(relative_current_dir, e)}/"`. -/
def dirQuery (rc name : String) : String :=
  "/" ++ osPathJoin rc name ++ "/"

/-- The ignore-query string the traversal submits for a non-directory
entry: the literal f-string `f"/{os.path.join(relative_current_dir, e)}"`. -/
def fileQuery (rc name : String) : String :=
  "/" ++ osPathJoin rc name

/-- The external `pathspec.GitIgnoreSpec`: its raw pattern lines plus an
abstract compiled matcher.  The library's semantics is not part of this
repository, so `matcher` is unconstrained. -/
structure GitIgnoreSpec where
  lines : List String
  matcher : String → Bool

/-- Models `GitIgnoreSpec.from_lines`, parameterised by the external pattern
engine that compiles pattern lines to a matching function. -/
def GitIgnoreSpec.from_lines (engine : List String → String → Bool)
    (lines : List String) : GitIgnoreSpec :=
  ⟨lines, engine lines⟩

/-- The library's `match_file` query. -/
def GitIgnoreSpec.match_file (s : GitIgnoreSpec) (path : String) : Bool :=
  s.matcher path

/-- The `PathspecIgnorer` wrapper of one compiled pattern set. -/
structure PathspecIgnorer where
  pathspec : GitIgnoreSpec

/-- Models `PathspecIgnorer.create`. -/
def PathspecIgnorer.create (engine : List String → String → Bool)
    (ignore_patterns : List String) : PathspecIgnorer :=
  ⟨GitIgnoreSpec.from_lines engine ignore_patterns⟩

/-- Models `PathspecIgnorer.ignore`: the `assert path not in ("/", "")` is
modelled as a `contractViolation` error, after which the path is handed to
the compiled pattern set unchanged. -/
def PathspecIgnorer.ignore (p : PathspecIgnorer) (path : String) :
    Except PyError Bool :=
  if path = "/" ∨ path = "" then .error .contractViolation
  else .ok (p.pathspec.match_file path)

/-- The `GitIgnorer` scoped ignore registry, an ordered list of
(directory-prefix, matcher) pairs. -/
structure GitIgnorer where
  ignorer_data : List (String × PathspecIgnorer)

/-- The `for prefix, ignorer in self.ignorer_data` loop of
`GitIgnorer.ignore`: first scope whose prefix starts the path and whose
matcher reports a match wins; otherwise `false`. -/
def GitIgnorer.ignoreAux (path : String) :
    List (String × PathspecIgnorer) → Except PyError Bool
  | [] => .ok false
  | (pfx, ign) :: rest =>
    if strStartsWith path pfx then
      match ign.ignore path with
      | .error e => .error e
      | .ok true => .ok true
      | .ok false => GitIgnorer.ignoreAux path rest
    else GitIgnorer.ignoreAux path rest

/-- Models `GitIgnorer.ignore`: asserts the path is not the root, then scans the
scope entries. -/
def GitIgnorer.ignore (g : GitIgnorer) (path : String) : Except PyError Bool :=
  if path = "/" ∨ path = "" then .error .contractViolation
  else GitIgnorer.ignoreAux path g.ignorer_data

/-- Splits a character list at every `'\n'`, with Python's `splitlines`
conventions: the empty text has no lines, and a trailing terminator does
not open a final empty line. -/
def splitlinesChars : List Char → List (List Char)
  | [] => []
  | c :: rest =>
    if c = '\n' then [] :: splitlinesChars rest
    else
      match splitlinesChars rest with
      | [] => [[c]]
      | l :: ls => (c :: l) :: ls

/-- Models Python's `str.splitlines` for `"\n"`-terminated text (the only
line terminator our modelled `.gitignore` contents use). -/
def pySplitlines (s : String) : List String :=
  (splitlinesChars s.data).map fun l => String.mk l

/-- The `".gitignore" in files` test together with the subsequent `open`:
the first non-directory entry named `.gitignore`, with its content and
readability. -/
def findGitignore : List FSEntry → Option (String × Bool)
  | [] => none
  | .file n c r :: rest => if n = ".gitignore" then some (c, r) else findGitignore rest
  | .dir _ _ _ :: rest => findGitignore rest

/-- The `fixpath` computation of `_collect_gitignores`:
`"/" if relpath == "." else f"/{relpath}"`. -/
def fixpathOf (rel : String) : String :=
  if rel = "." then "/" else "/" ++ rel

mutual
/-- Models `GitIgnorer._collect_gitignores`, fused with the `os.walk(top)` it
iterates: `os.walk` visits a directory top-down, yields it before its
subtrees, and silently skips (default `onerror=None`) any directory it
cannot list.  At each yielded directory with a `.gitignore`, the file is
read (an unreadable one raises `OSError`, propagated) and recorded under
`fixpathOf` of the directory's relative path. -/
def collectGitignores (rel : String) : FSEntry → Except PyError (List (String × List String))
  | .file _ _ _ => .ok []
  | .dir _ cs listable =>
    if listable then
      match findGitignore cs with
      | some (_, false) => .error .ioError
      | some (c, true) =>
        match collectList rel cs with
        | .error e => .error e
        | .ok subs => .ok ((fixpathOf rel, pySplitlines c) :: subs)
      | none =>
        match collectList rel cs with
        | .error e => .error e
        | .ok subs => .ok subs
    else .ok []

/-- Walks the subdirectories of the current directory in listing order,
concatenating their collected `.gitignore` scopes. -/
def collectList (rel : String) : List FSEntry → Except PyError (List (String × List String))
  | [] => .ok []
  | .file _ _ _ :: rest => collectList rel rest
  | .dir n cs b :: rest =>
    match collectGitignores (relpathOfChild rel n) (.dir n cs b) with
    | .error e => .error e
    | .ok s =>
      match collectList rel rest with
      | .error e => .error e
      | .ok r => .ok (s ++ r)
end

/-- Models `GitIgnorer.from_git_root`: the root scope holds exactly the extra
root patterns (`xtra_root_patterns or []`) at prefix `"/"`, followed by
one scope per collected `.gitignore`. -/
def GitIgnorer.from_git_root (engine : List String → String → Bool)
    (root : FSEntry) (xtra_root_patterns : Option (List String)) :
    Except PyError GitIgnorer :=
  match collectGitignores "." root with
  | .error e => .error e
  | .ok gitignores =>
    .ok ⟨("/", PathspecIgnorer.create engine (xtra_root_patterns.getD []))
          :: gitignores.map (fun pr => (pr.1, PathspecIgnorer.create engine pr.2))⟩

/-- The `dirs` list comprehension of `FileSelector.traverse`: keeps the
directory entries whose joined path is truthy and whose directory query the
registry does not ignore, propagating any error the registry raises. -/
def selectDirs (g : GitIgnorer) (cd rc : String) :
    List FSEntry → Except PyError (List FSEntry)
  | [] => .ok []
  | e :: rest =>
    if osPathJoin cd e.name = "" then selectDirs g cd rc rest
    else if e.isDir then
      match g.ignore (dirQuery rc e.name) with
      | .error err => .error err
      | .ok true => selectDirs g cd rc rest
      | .ok false =>
        match selectDirs g cd rc rest with
        | .error err => .error err
        | .ok ds => .ok (e :: ds)
    else selectDirs g cd rc rest

/-- The `files` list comprehension of `FileSelector.traverse`: the joined
paths of the non-directory entries whose file query the registry does not
ignore. -/
def selectFiles (g : GitIgnorer) (cd rc : String) :
    List FSEntry → Except PyError (List String)
  | [] => .ok []
  | e :: rest =>
    if osPathJoin cd e.name = "" then selectFiles g cd rc rest
    else if e.isDir then selectFiles g cd rc rest
    else
      match g.ignore (fileQuery rc e.name) with
      | .error err => .error err
      | .ok true => selectFiles g cd rc rest
      | .ok false =>
        match selectFiles g cd rc rest with
        | .error err => .error err
        | .ok fs => .ok (osPathJoin cd e.name :: fs)
/-- A successful `selectDirs` result is no larger than its input: the
comprehension only filters.  (Needed for the traversal's termination.) -/
theorem selectDirs_sizeOf_le (g : GitIgnorer) (cd rc : String) :
    ∀ (es ds : List FSEntry), selectDirs g cd rc es = .ok ds → sizeOf ds ≤ sizeOf es := by
  intro es
  induction es with
  | nil =>
    intro ds h
    simp only [selectDirs] at h
    cases h
    simp
  | cons e rest ih =>
    intro ds h
    have hle : sizeOf rest ≤ sizeOf (e :: rest) := by
      simp only [List.cons.sizeOf_spec]
      omega
    rcases e with ⟨n, c, r⟩ | ⟨n, cs, b⟩
    · simp [selectDirs, FSEntry.isDir, FSEntry.name] at h
      exact le_trans (ih ds h) hle
    · simp only [selectDirs, FSEntry.isDir, FSEntry.name, if_true] at h
      split at h
      · exact le_trans (ih ds h) hle
      · split at h
        · exact Except.noConfusion h
        · exact le_trans (ih ds h) hle
        · split at h
          · exact Except.noConfusion h
          · rename_i ds' heq'
            injection h with h
            subst h
            have := ih ds' heq'
            simp
            omega

/-- The `FileSelector` record: the project root path (the configuration collaborator's
`project_root()` / `project_root_path()`) and the registry. -/
structure FileSelector where
  rootPath : String
  ignorer : GitIgnorer

mutual
/-- Models `FileSelector.traverse`, on the node standing for `current_dir`.
`cd` is the absolute `current_dir` string and `rc` models
`os.path.relpath(current_dir, project_root)`.  Listing a non-directory or
an unlistable directory raises `OSError` (`os.listdir`).  Otherwise:
the `dirs` comprehension runs first, then the `files` comprehension, then
the recursion into the selected directories, and the result is
`files ++ subdir_files`. -/
def FileSelector.traverse (s : FileSelector) (cd rc : String) (d : FSEntry) :
    Except PyError (List String) :=
  match d with
  | .file _ _ _ => .error .ioError
  | .dir _ entries listable =>
    if listable then
      match h : selectDirs s.ignorer cd rc entries with
      | .error e => .error e
      | .ok dirs =>
        match selectFiles s.ignorer cd rc entries with
        | .error e => .error e
        | .ok files =>
          match FileSelector.traverseAll s cd rc dirs with
          | .error e => .error e
          | .ok subdir_files => .ok (files ++ subdir_files)
    else .error .ioError
termination_by sizeOf d
decreasing_by
  rename_i cs lb hl
  have h1 := selectDirs_sizeOf_le s.ignorer cd rc cs dirs h
  simp
  omega

/-- The `[file for d in dirs for file in self.traverse(d)]` comprehension:
recurse into each selected directory in order and flatten. -/
def FileSelector.traverseAll (s : FileSelector) (cd rc : String) (l : List FSEntry) :
    Except PyError (List String) :=
  match l with
  | [] => .ok []
  | e :: rest =>
    match FileSelector.traverse s (osPathJoin cd e.name) (relpathOfChild rc e.name) e with
    | .error err => .error err
    | .ok sub =>
      match FileSelector.traverseAll s cd rc rest with
      | .error err => .error err
      | .ok r => .ok (sub ++ r)
termination_by sizeOf l
decreasing_by
  all_goals simp
  all_goals omega
end

/-- Models `FileSelector.get_all`: start the traversal at the project root
(whose relative path to itself is `"."`). -/
def FileSelector.get_all (s : FileSelector) (root : FSEntry) :
    Except PyError (List String) :=
  FileSelector.traverse s s.rootPath "." root

/-- Modelled from the spec: the external configuration collaborator's
"store selected files" operation (`ConfigManager.select_files`), which is
not under `src/`.  Per the spec it persists the given list unchanged (a
pure pass-through), so it is modelled as the identity on the list, the
returned value standing for the persisted state. -/
def select_files (files : List String) : List String := files

/-- Models `FileSelector.update_selected`: compute the full list, then persist
it; on error the persistence call is never reached. -/
def FileSelector.update_selected (s : FileSelector) (root : FSEntry) :
    Except PyError (List String) :=
  match s.get_all root with
  | .error e => .error e
  | .ok all_files => .ok (select_files all_files)

/-- Specification-side reading of one scope entry, following the spec's
words: a scope applies when the query path starts with the scope's prefix,
and an applicable scope reports what its matcher says about the path. -/
def scopeMatches (path : String) (s : String × PathspecIgnorer) : Bool :=
  strStartsWith path s.1 && s.2.pathspec.match_file path

/-- Specification-side registry semantics: the logical OR, over every
scope entry, of "the scope applies and its matcher matches". -/
def registryIgnoresSpec (g : GitIgnorer) (path : String) : Bool :=
  g.ignorer_data.any (scopeMatches path)

/-- The size of a filtered list is bounded by the size of the list. -/
theorem sizeOf_filter_le {α : Type} [SizeOf α] (p : α → Bool) :
    ∀ l : List α, sizeOf (l.filter p) ≤ sizeOf l := by
  intro l
  induction l with
  | nil => simp
  | cons a l ih =>
    rw [List.filter_cons]
    split
    · simp only [List.cons.sizeOf_spec]
      omega
    · simp only [List.cons.sizeOf_spec]
      omega

mutual
/-- Specification-side traversal, written the way the spec states it: the
result for a directory is the absolute paths of its non-ignored
non-directory entries, followed by the recursive results for its
non-ignored subdirectories in listing order, flattened.  Ignoring is the
specification-side registry semantics on the `dirQuery`/`fileQuery`
strings. -/
def traverseSpec (g : GitIgnorer) (cd rc : String) (d : FSEntry) : List String :=
  match d with
  | .file _ _ _ => []
  | .dir _ entries _ =>
    ((entries.filter fun e => !e.isDir && !registryIgnoresSpec g (fileQuery rc e.name)).map
        fun e => osPathJoin cd e.name)
      ++ traverseSpecSub g cd rc
          (entries.filter fun e => e.isDir && !registryIgnoresSpec g (dirQuery rc e.name))
termination_by sizeOf d
decreasing_by
  rename_i entries lb
  have := sizeOf_filter_le
    (fun e => e.isDir && !registryIgnoresSpec g (dirQuery rc e.name)) entries
  simp
  omega

/-- The flattened recursive results of the selected subdirectories, in
order. -/
def traverseSpecSub (g : GitIgnorer) (cd rc : String) (l : List FSEntry) : List String :=
  match l with
  | [] => []
  | e :: rest =>
    traverseSpec g (osPathJoin cd e.name) (relpathOfChild rc e.name) e
      ++ traverseSpecSub g cd rc rest
termination_by sizeOf l
decreasing_by
  all_goals simp
  all_goals omega
end

mutual
/-- All file paths of the tree below a directory node, ignoring nothing:
the absolute paths of the non-directory entries, then the recursive
results for every subdirectory in listing order.  (Same shape as the
traversal: files before subdirectories at each level.) -/
def allFilePathsDir (cd : String) (d : FSEntry) : List String :=
  match d with
  | .file _ _ _ => []
  | .dir _ entries _ =>
    ((entries.filter fun e => !e.isDir).map fun e => osPathJoin cd e.name)
      ++ allFilePathsSub cd (entries.filter fun e => e.isDir)
termination_by sizeOf d
decreasing_by
  rename_i entries lb
  have := sizeOf_filter_le (fun e => e.isDir) entries
  simp
  omega

/-- The flattened file paths below each directory of the list. -/
def allFilePathsSub (cd : String) (l : List FSEntry) : List String :=
  match l with
  | [] => []
  | e :: rest => allFilePathsDir (osPathJoin cd e.name) e ++ allFilePathsSub cd rest
termination_by sizeOf l
decreasing_by
  all_goals simp
  all_goals omega
end

/-- A healthy entry name, as any real directory listing returns: nonempty
and without a path separator. -/
def validName (n : String) : Bool :=
  n ≠ "" && !n.data.contains '/'

mutual
/-- Structural well-formedness of a filesystem entry: its name is valid
and, for a directory, its children are well-formed with pairwise distinct
names (a real filesystem cannot hold two siblings of the same name). -/
def entryWF : FSEntry → Bool
  | .file n _ _ => validName n
  | .dir n cs _ => validName n && levelWF cs

/-- Well-formedness of one directory listing: every entry is well-formed
and no two entries share a name. -/
def levelWF : List FSEntry → Bool
  | [] => true
  | e :: rest => entryWF e && rest.all (fun e2 => e2.name != e.name) && levelWF rest
end

mutual
/-- No file named `.gitignore` anywhere below the node. -/
def noGitignores : FSEntry → Bool
  | .file n _ _ => n != ".gitignore"
  | .dir _ cs _ => noGitignoresList cs

/-- No file named `.gitignore` anywhere below any of the entries. -/
def noGitignoresList : List FSEntry → Bool
  | [] => true
  | e :: rest => noGitignores e && noGitignoresList rest
end

mutual
/-- Every directory of the tree (the node included) can be listed. -/
def allListable : FSEntry → Bool
  | .file _ _ _ => true
  | .dir _ cs b => b && allListableList cs

/-- Every directory below any of the entries can be listed. -/
def allListableList : List FSEntry → Bool
  | [] => true
  | e :: rest => allListable e && allListableList rest
end

/-- Relation `WalkDirFrom rel d r cs`: starting a top-down walk at node `d` whose
relative path is `rel`, the walk reaches a listable directory of relative
path `r` and children `cs`.  This is the specification-side notion of "a
real directory of the tree", used to state what the collected scope
prefixes correspond to. -/
inductive WalkDirFrom : String → FSEntry → String → List FSEntry → Prop where
  | base (rel : String) (n : String) (cs : List FSEntry) :
      WalkDirFrom rel (.dir n cs true) rel cs
  | step (rel : String) (d : FSEntry) (r : String) (cs : List FSEntry)
      (n : String) (cs' : List FSEntry) :
      WalkDirFrom rel d r cs → FSEntry.dir n cs' true ∈ cs →
      WalkDirFrom rel d (relpathOfChild r n) cs'

deriving instance DecidableEq for Except

/-- Concrete pattern engine for the sibling-leak scenario: compiles the
pattern list `["X"]` (and only that one) to a matcher that matches exactly
the path `/subdir/file`.  With it, only a scope created from a
`.gitignore` whose content is `X` can ever report a match. -/
def engineC10 : List String → String → Bool :=
  fun lines path => lines == ["X"] && path == "/subdir/file"

/-- A project tree whose only `.gitignore` lives in `/sub`, next to a
sibling directory `/subdir` whose name extends `sub`. -/
def fsC10 : FSEntry :=
  .dir "root"
    [.dir "sub" [.file ".gitignore" "X" true] true,
     .dir "subdir" [.file "file" "" true] true] true

/-- Registry used in the C1 witness: a root scope that matches nothing and
an `/a` scope whose matcher matches exactly `/a.txt`. -/
def regW1 : GitIgnorer :=
  ⟨[("/", ⟨⟨[], fun _ => false⟩⟩), ("/a", ⟨⟨["a*"], fun p => p == "/a.txt"⟩⟩)]⟩

/-- Single-scope registry at `/sub` whose matcher matches exactly the
scope-relative path `/foo.py` — what the matcher would receive if the
scope prefix were stripped from the query. -/
def regStrip : GitIgnorer :=
  ⟨[("/sub", ⟨⟨["/foo.py"], fun p => p == "/foo.py"⟩⟩)]⟩

/-- Single-scope registry at `/sub` whose matcher matches exactly the full
query path `/sub/foo.py`. -/
def regFull : GitIgnorer :=
  ⟨[("/sub", ⟨⟨["/foo.py"], fun p => p == "/sub/foo.py"⟩⟩)]⟩

/-- Registry whose only matcher matches exactly `/build/` — the
directory-query string the spec claims is submitted for a root-level
directory named `build`. -/
def regClaimQuery : GitIgnorer :=
  ⟨[("/", ⟨⟨["build/"], fun p => p == "/build/"⟩⟩)]⟩

/-- Registry whose only matcher matches exactly `/./build/` — the
directory-query string the code actually submits for a root-level
directory named `build`. -/
def regDotQuery : GitIgnorer :=
  ⟨[("/", ⟨⟨["build/"], fun p => p == "/./build/"⟩⟩)]⟩

/-- Both appended strings of an empty concatenation are empty. -/
theorem append_eq_empty {a b : String} (h : a ++ b = "") : a = "" ∧ b = "" := by
  have hd := congrArg String.data h
  simp only [String.data_append] at hd
  rcases List.append_eq_nil.mp hd with ⟨h1, h2⟩
  exact ⟨String.ext h1, String.ext h2⟩

/-- Python's `os.path.join` returns the empty string only on two empty arguments. -/
theorem osPathJoin_eq_empty {a b : String} (h : osPathJoin a b = "") :
    a = "" ∧ b = "" := by
  unfold osPathJoin at h
  split at h
  · exact ⟨by assumption, h⟩
  · split at h
    · exact absurd (append_eq_empty h).1 (by assumption)
    · rcases append_eq_empty h with ⟨h1, h2⟩
      exact absurd (append_eq_empty h1).1 (by assumption)

/-- A directory query is never the root path nor empty: it always has at
least the two separator characters. -/
theorem dirQuery_ne_root (rc n : String) :
    dirQuery rc n ≠ "/" ∧ dirQuery rc n ≠ "" := by
  unfold dirQuery
  constructor
  · intro h
    have := congrArg String.length h
    simp only [String.length_append] at this
    have h1 : ("/" : String).length = 1 := by decide
    rw [h1] at this
    omega
  · intro h
    have := congrArg String.length h
    simp only [String.length_append] at this
    have h1 : ("/" : String).length = 1 := by decide
    have h0 : ("" : String).length = 0 := by decide
    rw [h1, h0] at this
    omega

/-- A file query built from a nonempty joined path is never the root path
nor empty. -/
theorem fileQuery_ne_root (rc n : String) (hn : osPathJoin rc n ≠ "") :
    fileQuery rc n ≠ "/" ∧ fileQuery rc n ≠ "" := by
  unfold fileQuery
  have hlen : (osPathJoin rc n).length ≠ 0 := by
    intro h
    exact hn (String.ext (List.length_eq_zero.mp h))
  constructor
  · intro h
    have := congrArg String.length h
    simp only [String.length_append] at this
    have h1 : ("/" : String).length = 1 := by decide
    rw [h1] at this
    omega
  · intro h
    have := congrArg String.length h
    simp only [String.length_append] at this
    have h1 : ("/" : String).length = 1 := by decide
    have h0 : ("" : String).length = 0 := by decide
    rw [h1, h0] at this
    omega

/-- The scope loop of the registry computes the OR, over the scope list,
of "the scope's prefix starts the path and its matcher matches", provided
the path is not the root (so the inner assertion cannot fire). -/
theorem ignoreAux_eq_any (path : String) (hr : path ≠ "/") (he : path ≠ "") :
    ∀ l : List (String × PathspecIgnorer),
      GitIgnorer.ignoreAux path l = .ok (l.any (scopeMatches path)) := by
  have hne : ¬(path = "/" ∨ path = "") := by
    rintro (h | h)
    · exact hr h
    · exact he h
  intro l
  induction l with
  | nil => simp [GitIgnorer.ignoreAux]
  | cons s rest ih =>
    rcases s with ⟨pfx, ign⟩
    by_cases hs : strStartsWith path pfx
    · cases hm : ign.pathspec.match_file path
      · simp [GitIgnorer.ignoreAux, PathspecIgnorer.ignore, hne, hs, hm, ih, scopeMatches]
      · simp [GitIgnorer.ignoreAux, PathspecIgnorer.ignore, hne, hs, hm, scopeMatches]
    · simp [GitIgnorer.ignoreAux, hs, ih, scopeMatches]

/-- For a non-root query the registry's `ignore` returns (without error)
exactly the specification-side OR over all scopes. -/
theorem GitIgnorer.ignore_ok (g : GitIgnorer) (path : String)
    (hr : path ≠ "/") (he : path ≠ "") :
    g.ignore path = .ok (registryIgnoresSpec g path) := by
  have hne : ¬(path = "/" ∨ path = "") := by
    rintro (h | h)
    · exact hr h
    · exact he h
  simp [GitIgnorer.ignore, hne, registryIgnoresSpec, ignoreAux_eq_any path hr he]

/-- C1: for every registry and every query path other than `/` and `""`,
the registry's `ignore` is the logical OR over every scope entry of
"`path` starts with the scope's prefix and the scope's matcher matches
`path`".  In particular a scope contributes if and only if it is
applicable, and no scope (e.g. one whose pattern set ends in a negation)
can un-ignore a match produced by a different scope: the result is `true`
as soon as any applicable scope's matcher reports a match. -/
theorem registry_ignore_or_semantics (g : GitIgnorer) (path : String)
    (hr : path ≠ "/") (he : path ≠ "") :
    g.ignore path =
      .ok (g.ignorer_data.any fun s =>
        strStartsWith path s.1 && s.2.pathspec.match_file path) := by
  rw [GitIgnorer.ignore_ok g path hr he]
  rfl

/-- Witness for C1 at a concrete registry and path: the second scope of
`regW1` is applicable to `/a.txt` and its matcher matches, so `ignore`
reports `true`. -/
theorem registry_ignore_or_semantics_witness : regW1.ignore "/a.txt" = .ok true := by
  rw [registry_ignore_or_semantics regW1 "/a.txt" (by decide) (by decide)]
  decide

/-- C7: calling `ignore` with the root path `/` or the empty string raises
the contract-violation assertion, on the pattern matcher and on the
registry alike, whatever their pattern sets. -/
theorem ignore_root_contract_violation (p : PathspecIgnorer) (g : GitIgnorer) :
    p.ignore "/" = .error .contractViolation ∧
    p.ignore "" = .error .contractViolation ∧
    g.ignore "/" = .error .contractViolation ∧
    g.ignore "" = .error .contractViolation := by
  refine ⟨?_, ?_, ?_, ?_⟩ <;> simp [PathspecIgnorer.ignore, GitIgnorer.ignore]

/-- C6 counterexample: the claim says a query `/sub/foo.py` against the
scope at `/sub` reaches that scope's matcher as the stripped path
`/foo.py`.  Under `regStrip`, whose matcher matches exactly `/foo.py`,
the claim would force `ignore` to answer `true`; the code answers
`false`.  Under `regFull`, whose matcher matches exactly the unstripped
`/sub/foo.py`, the code answers `true` — the matcher receives the full
query path. -/
theorem matcher_prefix_stripping_cex :
    regStrip.ignore "/sub/foo.py" = .ok false ∧
    regFull.ignore "/sub/foo.py" = .ok true := by
  constructor <;> decide

/-- C6 amended: the path handed to an applicable scope's matcher is the
query path itself, unchanged — the scope's directory prefix is not
stripped. -/
theorem matcher_receives_full_path (pfx : String) (m : PathspecIgnorer)
    (path : String) (hr : path ≠ "/") (he : path ≠ "") :
    (GitIgnorer.mk [(pfx, m)]).ignore path =
      .ok (strStartsWith path pfx && m.pathspec.match_file path) := by
  rw [GitIgnorer.ignore_ok _ path hr he]
  simp [registryIgnoresSpec, scopeMatches]


/-- Witness for the amended C6: the full path `/sub/foo.py` is handed to
the matcher of the `/sub` scope (which here matches exactly that full
path). -/
theorem matcher_receives_full_path_witness :
    (GitIgnorer.mk [("/sub", ⟨⟨["/foo.py"], fun p => p == "/sub/foo.py"⟩⟩)]).ignore
        "/sub/foo.py" = .ok true := by
  rw [matcher_receives_full_path "/sub" ⟨⟨["/foo.py"], fun p => p == "/sub/foo.py"⟩⟩
    "/sub/foo.py" (by decide) (by decide)]
  decide

/-- C10: scope applicability is a raw string-prefix test against a prefix
that is not slash-terminated.  Concretely: from a tree whose only
`.gitignore` lives in directory `/sub`, `from_git_root` builds the scope
prefixes `["/", "/sub"]`, and the query `/subdir/file` — a path under the
*sibling* directory `subdir`, outside `/sub`'s subtree — is reported
ignored.  Only the `/sub` scope's matcher can report a match under
`engineC10` (the root scope compiles the empty pattern list, which
matches nothing), so the `/sub` scope was indeed consulted for a path
outside its directory subtree. -/
theorem scope_prefix_leaks_to_siblings :
    (GitIgnorer.from_git_root engineC10 fsC10 none).map
        (fun g => (g.ignorer_data.map Prod.fst, g.ignore "/subdir/file")) =
      .ok (["/", "/sub"], .ok true) := by
  have hs : pySplitlines "X" = ["X"] := by decide
  simp [GitIgnorer.from_git_root, collectGitignores, collectList, fsC10,
    findGitignore, fixpathOf, hs, relpathOfChild]
  decide

/-- C5 counterexample: for an entry directly in the project root the
query submitted to the registry is *not* `"/" ++ (relative path) ++ "/"`.
The code joins with `os.path.relpath(current_dir, root) = "."`, so a
root-level directory `build` is queried as `/./build/`, while its path
relative to the root is `build` and the claimed query would be `/build/`.
Behaviourally: the `dirs` comprehension keeps `build` under a registry
matching exactly the claimed query `/build/`, and drops it under a
registry matching exactly `/./build/`. -/
theorem query_path_root_level_cex :
    dirQuery "." "build" = "/./build/" ∧
    relpathOfChild "." "build" = "build" ∧
    dirQuery "." "build" ≠ "/" ++ relpathOfChild "." "build" ++ "/" ∧
    (selectDirs regClaimQuery "/r" "." [.dir "build" [] true]).map
        (fun l => l.map FSEntry.name) = .ok ["build"] ∧
    (selectDirs regDotQuery "/r" "." [.dir "build" [] true]).map
        (fun l => l.map FSEntry.name) = .ok [] := by
  refine ⟨by decide, by decide, by decide, by decide, by decide⟩

/-- C5 amended: the query submitted for an entry named `n` of a directory
whose root-relative path is `rc` is `"/" ++ os.path.join rc n` (with a
trailing `/` for directories).  For entries of non-root directories
(`rc ≠ "."`, and `rc` a well-formed relative path: nonempty without a
trailing slash) this equals `"/" ++ (entry's root-relative path) ++ "/"`
as the spec states; for entries directly in the root (`rc = "."`) it is
instead `"/./" ++ n ++ "/"`, carrying a `./` segment. -/
theorem query_path_construction (rc n : String) (h1 : rc ≠ ".")
    (h2 : rc ≠ "") (h3 : endsWithSlash rc = false) :
    dirQuery rc n = "/" ++ relpathOfChild rc n ++ "/" ∧
    fileQuery rc n = "/" ++ relpathOfChild rc n ∧
    dirQuery "." n = "/./" ++ n ++ "/" ∧
    fileQuery "." n = "/./" ++ n := by
  have hj : osPathJoin rc n = rc ++ "/" ++ n := by
    unfold osPathJoin
    rw [if_neg h2, if_neg (by simp [h3])]
  have hrel : relpathOfChild rc n = rc ++ "/" ++ n := by
    unfold relpathOfChild
    rw [if_neg h1]
  have hdotj : osPathJoin "." n = "." ++ "/" ++ n := by
    unfold osPathJoin
    rw [if_neg (by decide), if_neg (by decide)]
  refine ⟨?_, ?_, ?_, ?_⟩
  · rw [dirQuery, hj, hrel]
  · rw [fileQuery, hj, hrel]
  · rw [dirQuery, hdotj]
    apply String.ext
    simp [String.data_append]
  · rw [fileQuery, hdotj]
    apply String.ext
    simp [String.data_append]

/-- Witness for the amended C5 at `rc = "sub"`, `n = "x.py"`: the queries
are `/sub/x.py/` and `/sub/x.py`, and at the root they carry the `./`
segment. -/
theorem query_path_construction_witness :
    dirQuery "sub" "x.py" = "/" ++ relpathOfChild "sub" "x.py" ++ "/" ∧
    fileQuery "sub" "x.py" = "/" ++ relpathOfChild "sub" "x.py" ∧
    dirQuery "." "x.py" = "/./" ++ "x.py" ++ "/" ∧
    fileQuery "." "x.py" = "/./" ++ "x.py" :=
  query_path_construction "sub" "x.py" (by decide) (by decide) (by decide)

/-- A walk position reached from a child directory of `l` is also a walk
position of any parent directory whose children are `l`. -/
theorem WalkDirFrom_lift {rel0 : String} {d : FSEntry} {r : String}
    {cs : List FSEntry} (hw : WalkDirFrom rel0 d r cs) :
    ∀ {rel n : String} {cs' l : List FSEntry} (m : String),
      d = .dir n cs' true → rel0 = relpathOfChild rel n →
      FSEntry.dir n cs' true ∈ l → WalkDirFrom rel (.dir m l true) r cs := by
  induction hw with
  | base =>
    intro rel n cs' l m hd hrel hmem
    injection hd with h1 h2 h3
    subst h1
    subst h2
    subst hrel
    exact WalkDirFrom.step _ _ _ _ _ _ (WalkDirFrom.base _ _ _) hmem
  | step =>
    rename_i hw1 hmem2 ih
    intro rel n cs' l m hd hrel hmem
    exact WalkDirFrom.step _ _ _ _ _ _ (ih m hd hrel hmem) hmem2

mutual
/-- Every scope collected below a node comes from a listable directory the
walk reaches, holding a readable `.gitignore`, and records exactly that
directory's fixed-up relative path and the file's split lines. -/
theorem collect_mem (rel : String) (d : FSEntry)
    (out : List (String × List String))
    (h : collectGitignores rel d = .ok out) :
    ∀ pr ∈ out, ∃ r cs c,
      WalkDirFrom rel d r cs ∧ findGitignore cs = some (c, true) ∧
      pr = (fixpathOf r, pySplitlines c) := by
  match d with
  | .file nm c rb =>
    simp only [collectGitignores] at h
    injection h with h
    subst h
    intro pr hpr
    cases hpr
  | .dir nm cs listable =>
    simp only [collectGitignores] at h
    cases listable
    · simp only [Bool.false_eq_true, if_false] at h
      injection h with h
      subst h
      intro pr hpr
      cases hpr
    · simp only [if_true] at h
      cases hfind : findGitignore cs with
      | none =>
        rw [hfind] at h
        cases hlist : collectList rel cs with
        | error e =>
          rw [hlist] at h
          exact absurd h (by simp)
        | ok subs =>
          rw [hlist] at h
          injection h with h
          subst h
          intro pr hpr
          obtain ⟨n2, cs2, r2, cs3, c2, hmem, hw, hf, hpr2⟩ :=
            collectList_mem rel cs _ hlist pr hpr
          exact ⟨r2, cs3, c2, WalkDirFrom_lift hw nm rfl rfl hmem, hf, hpr2⟩
      | some pr0 =>
        rcases pr0 with ⟨c, rb⟩
        cases rb
        · rw [hfind] at h
          exact absurd h (by simp)
        · rw [hfind] at h
          cases hlist : collectList rel cs with
          | error e =>
            rw [hlist] at h
            exact absurd h (by simp)
          | ok subs =>
            rw [hlist] at h
            injection h with h
            subst h
            intro pr hpr
            cases hpr with
            | head =>
              exact ⟨rel, cs, c, .base rel nm cs, hfind, rfl⟩
            | tail _ hpr =>
              obtain ⟨n2, cs2, r2, cs3, c2, hmem, hw, hf, hpr2⟩ :=
                collectList_mem rel cs _ hlist pr hpr
              exact ⟨r2, cs3, c2, WalkDirFrom_lift hw nm rfl rfl hmem, hf, hpr2⟩
termination_by sizeOf d
decreasing_by
  all_goals simp
  all_goals omega

/-- Every scope collected from a list of entries comes from a listable
directory entry of the list (walked from its own relative path). -/
theorem collectList_mem (rel : String) (l : List FSEntry)
    (out : List (String × List String))
    (h : collectList rel l = .ok out) :
    ∀ pr ∈ out, ∃ n2 cs2 r cs c,
      FSEntry.dir n2 cs2 true ∈ l ∧
      WalkDirFrom (relpathOfChild rel n2) (.dir n2 cs2 true) r cs ∧
      findGitignore cs = some (c, true) ∧
      pr = (fixpathOf r, pySplitlines c) := by
  match l with
  | [] =>
    simp only [collectList] at h
    injection h with h
    subst h
    intro pr hpr
    cases hpr
  | .file nm c rb :: rest =>
    simp only [collectList] at h
    intro pr hpr
    obtain ⟨n2, cs2, r2, cs3, c2, hmem, hw, hf, hpr2⟩ :=
      collectList_mem rel rest _ h pr hpr
    exact ⟨n2, cs2, r2, cs3, c2, List.mem_cons_of_mem _ hmem, hw, hf, hpr2⟩
  | .dir nm cs b :: rest =>
    simp only [collectList] at h
    cases hc : collectGitignores (relpathOfChild rel nm) (.dir nm cs b) with
    | error e =>
      rw [hc] at h
      exact absurd h (by simp)
    | ok s =>
      rw [hc] at h
      cases hr : collectList rel rest with
      | error e =>
        rw [hr] at h
        exact absurd h (by simp)
      | ok rres =>
        rw [hr] at h
        injection h with h
        subst h
        intro pr hpr
        rcases List.mem_append.mp hpr with hpr | hpr
        · cases b
          · rw [show collectGitignores (relpathOfChild rel nm) (.dir nm cs false) = .ok []
                from by simp [collectGitignores]] at hc
            injection hc with hc
            subst hc
            cases hpr
          · obtain ⟨r2, cs3, c2, hw, hf, hpr2⟩ :=
              collect_mem (relpathOfChild rel nm) (.dir nm cs true) _ hc pr hpr
            exact ⟨nm, cs, r2, cs3, c2, List.mem_cons_self _ _, hw, hf, hpr2⟩
        · obtain ⟨n2, cs2, r2, cs3, c2, hmem, hw, hf, hpr2⟩ :=
            collectList_mem rel rest _ hr pr hpr
          exact ⟨n2, cs2, r2, cs3, c2, List.mem_cons_of_mem _ hmem, hw, hf, hpr2⟩
termination_by sizeOf l
decreasing_by
  all_goals simp
  all_goals omega
end

/-- C4: a registry built by `from_git_root` starts with a root scope at
prefix `/` whose pattern set is exactly the caller-supplied extra root
patterns (`[]` when none are given); a `.gitignore` in the root directory
itself is not merged into that entry but yields its own separate scope,
also at prefix `/`, placed right after it; and every scope whose prefix
is not `/` records a real walked directory that directly contained a
(readable) `.gitignore`, its prefix being `/` followed by that
directory's root-relative path. -/
theorem from_git_root_registry_shape (engine : List String → String → Bool)
    (root : FSEntry) (xtra : Option (List String)) (g' : GitIgnorer)
    (h : GitIgnorer.from_git_root engine root xtra = .ok g') :
    g'.ignorer_data.head? = some ("/", PathspecIgnorer.create engine (xtra.getD [])) ∧
    (∀ nm cs c, root = .dir nm cs true → findGitignore cs = some (c, true) →
      g'.ignorer_data[1]? = some ("/", PathspecIgnorer.create engine (pySplitlines c))) ∧
    (∀ pr ∈ g'.ignorer_data, pr.1 ≠ "/" →
      ∃ r cs c, WalkDirFrom "." root r cs ∧ r ≠ "." ∧ pr.1 = "/" ++ r ∧
        findGitignore cs = some (c, true) ∧
        pr.2 = PathspecIgnorer.create engine (pySplitlines c)) := by
  unfold GitIgnorer.from_git_root at h
  cases hcol : collectGitignores "." root with
  | error e =>
    rw [hcol] at h
    exact absurd h (by simp)
  | ok gis =>
    rw [hcol] at h
    injection h with h
    subst h
    refine ⟨rfl, ?_, ?_⟩
    · intro nm cs c hroot hfind
      subst hroot
      simp only [collectGitignores, if_true, hfind] at hcol
      cases hlist : collectList "." cs with
      | error e =>
        rw [hlist] at hcol
        exact absurd hcol (by simp)
      | ok subs =>
        rw [hlist] at hcol
        injection hcol with hcol
        subst hcol
        simp [fixpathOf]
    · intro pr hpr hne
      rcases List.mem_cons.mp hpr with hpr | hpr
      · subst hpr
        exact absurd rfl hne
      · obtain ⟨q, hq, hqpr⟩ := List.mem_map.mp hpr
        obtain ⟨r, cs, c, hw, hf, hqe⟩ := collect_mem "." root _ hcol q hq
        subst hqe
        subst hqpr
        have hr : r ≠ "." := by
          intro hr
          apply hne
          simp [fixpathOf, hr]
        refine ⟨r, cs, c, hw, hr, ?_, hf, rfl⟩
        simp [fixpathOf, hr]

/-- Project tree for the C4 witness: a readable root `.gitignore` with
content `A` and a nested `sub/.gitignore` with content `B`. -/
def fsC4 : FSEntry :=
  .dir "r"
    [.file ".gitignore" "A" true,
     .dir "sub" [.file ".gitignore" "B" true] true] true

/-- The registry `from_git_root` builds from `fsC4` with extra root
patterns `["p"]`: the extra-pattern root scope first, the root
`.gitignore` as its own scope also at `/`, then the nested scope. -/
def regC4 : GitIgnorer :=
  ⟨[("/", PathspecIgnorer.create engineC10 ["p"]),
    ("/", PathspecIgnorer.create engineC10 ["A"]),
    ("/sub", PathspecIgnorer.create engineC10 ["B"])]⟩

/-- Witness for C4 on `fsC4`: the head scope holds exactly the extra
patterns, and the root `.gitignore` forms the separate second scope at
`/`. -/
theorem from_git_root_registry_shape_witness :
    regC4.ignorer_data.head? = some ("/", PathspecIgnorer.create engineC10 ((some ["p"]).getD [])) ∧
    regC4.ignorer_data[1]? = some ("/", PathspecIgnorer.create engineC10 (pySplitlines "A")) := by
  have hA : pySplitlines "A" = ["A"] := by decide
  have hB : pySplitlines "B" = ["B"] := by decide
  have hfrom : GitIgnorer.from_git_root engineC10 fsC4 (some ["p"]) = .ok regC4 := by
    simp [GitIgnorer.from_git_root, collectGitignores, collectList, fsC4, regC4,
      findGitignore, fixpathOf, hA, hB, relpathOfChild]
  have H := from_git_root_registry_shape engineC10 fsC4 (some ["p"]) regC4 hfrom
  exact ⟨H.1, H.2.1 "r" _ "A" rfl (by decide)⟩

/-- The `dirs` comprehension treats a directory entry whose query the
registry ignores exactly as if the entry were absent. -/
theorem selectDirs_skip_ignored (g : GitIgnorer) (cd rc dn : String)
    (cs : List FSEntry) (b : Bool)
    (hig : registryIgnoresSpec g (dirQuery rc dn) = true) :
    ∀ l₁ l₂ : List FSEntry,
      selectDirs g cd rc (l₁ ++ .dir dn cs b :: l₂) = selectDirs g cd rc (l₁ ++ l₂) := by
  have hq := dirQuery_ne_root rc dn
  have hok : g.ignore (dirQuery rc dn) = .ok true := by
    rw [GitIgnorer.ignore_ok g _ hq.1 hq.2, hig]
  intro l₁
  induction l₁ with
  | nil =>
    intro l₂
    simp [selectDirs, FSEntry.name, FSEntry.isDir, hok]
  | cons a t ih =>
    intro l₂
    simp only [List.cons_append, selectDirs, FSEntry.name, FSEntry.isDir]
    simp only [List.append_eq]
    rw [ih l₂]

/-- The `files` comprehension never keeps a directory entry, so removing a
directory entry leaves it unchanged. -/
theorem selectFiles_skip_dir (g : GitIgnorer) (cd rc dn : String)
    (cs : List FSEntry) (b : Bool) :
    ∀ l₁ l₂ : List FSEntry,
      selectFiles g cd rc (l₁ ++ .dir dn cs b :: l₂) = selectFiles g cd rc (l₁ ++ l₂) := by
  intro l₁
  induction l₁ with
  | nil =>
    intro l₂
    simp [selectFiles, FSEntry.name, FSEntry.isDir]
  | cons a t ih =>
    intro l₂
    simp only [List.cons_append, selectFiles, FSEntry.name, FSEntry.isDir]
    simp only [List.append_eq]
    rw [ih l₂]

/-- C3: if the registry reports a directory entry's query ignored, the
traversal behaves exactly as if that directory (its whole subtree
included) were absent from the listing: it is not recursed into and none
of its descendants can contribute to the result, whatever their own
ignore status. -/
theorem ignored_dir_pruned (s : FileSelector) (nm cd rc dn : String)
    (cs l₁ l₂ : List FSEntry) (b lb : Bool)
    (hig : registryIgnoresSpec s.ignorer (dirQuery rc dn) = true) :
    FileSelector.traverse s cd rc (.dir nm (l₁ ++ .dir dn cs b :: l₂) lb) =
      FileSelector.traverse s cd rc (.dir nm (l₁ ++ l₂) lb) := by
  cases lb
  · simp [FileSelector.traverse]
  · simp only [FileSelector.traverse, if_true]
    rw [selectDirs_skip_ignored s.ignorer cd rc dn cs b hig l₁ l₂,
      selectFiles_skip_dir s.ignorer cd rc dn cs b l₁ l₂]

/-- Witness for C3: under the registry that ignores `/./build/`, a root
listing with the `build` directory traverses to the same result as the
listing without it — `build`'s file `out.txt` cannot appear. -/
theorem ignored_dir_pruned_witness :
    FileSelector.traverse ⟨"/r", regDotQuery⟩ "/r" "."
        (.dir "r" ([] ++ .dir "build" [.file "out.txt" "" true] true ::
          [.file "keep.txt" "" true]) true) =
      FileSelector.traverse ⟨"/r", regDotQuery⟩ "/r" "."
        (.dir "r" ([] ++ [.file "keep.txt" "" true]) true) :=
  ignored_dir_pruned ⟨"/r", regDotQuery⟩ "r" "/r" "." "build"
    [.file "out.txt" "" true] [] [.file "keep.txt" "" true] true true (by decide)

/-- Joining a nonempty directory path with anything stays nonempty. -/
theorem osPathJoin_ne_empty {cd : String} (hcd : cd ≠ "") (n : String) :
    osPathJoin cd n ≠ "" :=
  fun h => hcd (osPathJoin_eq_empty h).1

/-- Under a nonempty current directory the `dirs` comprehension always
succeeds and selects exactly the directory entries whose directory query
the registry does not ignore (specification-side semantics). -/
theorem selectDirs_ok (g : GitIgnorer) (cd rc : String) (hcd : cd ≠ "") :
    ∀ es : List FSEntry,
      selectDirs g cd rc es =
        .ok (es.filter fun e => e.isDir && !registryIgnoresSpec g (dirQuery rc e.name)) := by
  intro es
  induction es with
  | nil => simp [selectDirs]
  | cons e rest ih =>
    rcases e with ⟨n, c, r⟩ | ⟨n, cs, b⟩
    · have hne : osPathJoin cd n ≠ "" := osPathJoin_ne_empty hcd n
      simp [selectDirs, FSEntry.isDir, FSEntry.name, hne, ih]
    · have hne : osPathJoin cd n ≠ "" := osPathJoin_ne_empty hcd n
      have hq := dirQuery_ne_root rc n
      have hok := GitIgnorer.ignore_ok g (dirQuery rc n) hq.1 hq.2
      cases hig : registryIgnoresSpec g (dirQuery rc n)
      · rw [hig] at hok
        simp [selectDirs, FSEntry.isDir, FSEntry.name, hne, ih, hok, hig, List.filter_cons]
      · rw [hig] at hok
        simp [selectDirs, FSEntry.isDir, FSEntry.name, hne, ih, hok, hig, List.filter_cons]

/-- When the `files` comprehension succeeds (no query hit the root-path
assertion), its result is exactly the joined paths of the non-directory
entries whose file query the registry does not ignore. -/
theorem selectFiles_ok (g : GitIgnorer) (cd rc : String) (hcd : cd ≠ "") :
    ∀ (es : List FSEntry) (fs : List String), selectFiles g cd rc es = .ok fs →
      fs = (es.filter fun e =>
          !e.isDir && !registryIgnoresSpec g (fileQuery rc e.name)).map
        fun e => osPathJoin cd e.name := by
  intro es
  induction es with
  | nil =>
    intro fs h
    simp only [selectFiles] at h
    injection h with h
    subst h
    simp
  | cons e rest ih =>
    intro fs h
    rcases e with ⟨n, c, r⟩ | ⟨n, cs, b⟩
    · have hne : osPathJoin cd n ≠ "" := osPathJoin_ne_empty hcd n
      simp only [selectFiles, FSEntry.isDir, FSEntry.name, Bool.false_eq_true, if_false] at h
      rw [if_neg hne] at h
      by_cases hrn : osPathJoin rc n = ""
      · have hq : fileQuery rc n = "/" := by
          rw [fileQuery, hrn]
          simp
        have herr : g.ignore (fileQuery rc n) = .error .contractViolation := by
          simp [GitIgnorer.ignore, hq]
        rw [herr] at h
        exact absurd h (by simp)
      · have hq := fileQuery_ne_root rc n hrn
        have hok := GitIgnorer.ignore_ok g (fileQuery rc n) hq.1 hq.2
        cases hig : registryIgnoresSpec g (fileQuery rc n)
        · rw [hig] at hok
          rw [hok] at h
          cases hrest : selectFiles g cd rc rest with
          | error err =>
            rw [hrest] at h
            exact absurd h (by simp)
          | ok fs' =>
            rw [hrest] at h
            injection h with h
            subst h
            rw [ih fs' hrest]
            simp [List.filter_cons, FSEntry.isDir, FSEntry.name, hig]
        · rw [hig] at hok
          rw [hok] at h
          rw [ih fs h]
          simp [List.filter_cons, FSEntry.isDir, FSEntry.name, hig]
    · have hne : osPathJoin cd n ≠ "" := osPathJoin_ne_empty hcd n
      simp only [selectFiles, FSEntry.isDir, FSEntry.name, if_true] at h
      rw [if_neg hne] at h
      rw [ih fs h]
      simp [List.filter_cons, FSEntry.isDir]

mutual
/-- A successful traversal of a directory node computes exactly the
specification-side traversal: this level's non-ignored file paths,
followed by the recursive results of the non-ignored subdirectories. -/
theorem traverse_ok_eq_spec (s : FileSelector) (cd rc : String) (d : FSEntry)
    (l : List String) (hcd : cd ≠ "")
    (h : FileSelector.traverse s cd rc d = .ok l) :
    l = traverseSpec s.ignorer cd rc d := by
  match d with
  | .file nm c r =>
    simp only [FileSelector.traverse] at h
    exact absurd h (by simp)
  | .dir nm entries lb =>
    cases lb
    · simp only [FileSelector.traverse, Bool.false_eq_true, if_false] at h
      exact absurd h (by simp)
    · simp only [FileSelector.traverse, if_true] at h
      rw [selectDirs_ok s.ignorer cd rc hcd entries] at h
      split at h
      next e heq => exact absurd heq (by simp)
      next dirs heq =>
        injection heq with heq
        subst heq
        split at h
        next e heq2 => exact absurd h (by simp)
        next fs heq2 =>
          split at h
          next e heq3 => exact absurd h (by simp)
          next sub heq3 =>
            injection h with h
            subst h
            have h1 := selectFiles_ok s.ignorer cd rc hcd entries fs heq2
            have h2 := traverseAll_ok_eq_specSub s cd rc _ sub hcd heq3
            rw [h1, h2]
            simp only [traverseSpec]
termination_by sizeOf d
decreasing_by
  have := sizeOf_filter_le
    (fun e => e.isDir && !registryIgnoresSpec s.ignorer (dirQuery rc e.name)) entries
  simp
  omega

/-- A successful recursion over a list of selected directories computes
the flattened specification-side results, in order. -/
theorem traverseAll_ok_eq_specSub (s : FileSelector) (cd rc : String)
    (ds : List FSEntry) (l : List String) (hcd : cd ≠ "")
    (h : FileSelector.traverseAll s cd rc ds = .ok l) :
    l = traverseSpecSub s.ignorer cd rc ds := by
  match ds with
  | [] =>
    simp only [FileSelector.traverseAll] at h
    injection h with h
    subst h
    simp [traverseSpecSub]
  | e :: rest =>
    simp only [FileSelector.traverseAll] at h
    cases ht : FileSelector.traverse s (osPathJoin cd e.name) (relpathOfChild rc e.name) e with
    | error err =>
      rw [ht] at h
      exact absurd h (by simp)
    | ok sub =>
      rw [ht] at h
      cases hr : FileSelector.traverseAll s cd rc rest with
      | error err =>
        rw [hr] at h
        exact absurd h (by simp)
      | ok r2 =>
        rw [hr] at h
        injection h with h
        subst h
        have h1 := traverse_ok_eq_spec s (osPathJoin cd e.name) (relpathOfChild rc e.name)
          e sub (osPathJoin_ne_empty hcd _) ht
        have h2 := traverseAll_ok_eq_specSub s cd rc rest r2 hcd hr
        rw [h1, h2]
        simp only [traverseSpecSub]
termination_by sizeOf ds
decreasing_by
  all_goals simp
  all_goals omega
end

mutual
/-- The specification-side traversal result is a sublist of the list of
all file paths below the node: every element it returns is the absolute
path of an actual (non-directory) file of the tree, in the same order. -/
theorem traverseSpec_sublist_all (g : GitIgnorer) (cd rc : String) (d : FSEntry) :
    List.Sublist (traverseSpec g cd rc d) (allFilePathsDir cd d) := by
  match d with
  | .file nm c r =>
    simp only [traverseSpec, allFilePathsDir]
    exact List.Sublist.refl _
  | .dir nm entries lb =>
    simp only [traverseSpec, allFilePathsDir]
    refine List.Sublist.append ?_ ?_
    · refine List.Sublist.map _ ?_
      refine List.monotone_filter_right entries ?_
      intro a ha
      exact (Bool.and_elim_left ha)
    · refine traverseSpecSub_sublist_all g cd rc ?_
      refine List.monotone_filter_right entries ?_
      intro a ha
      exact (Bool.and_elim_left ha)
termination_by sizeOf d
decreasing_by
  have := sizeOf_filter_le (fun e => e.isDir) entries
  simp
  omega

/-- Monotone version for the subdirectory recursion: a selection of
directories yields a sublist of the file paths below a superlist of
directories. -/
theorem traverseSpecSub_sublist_all (g : GitIgnorer) (cd rc : String)
    {ds₁ ds₂ : List FSEntry} (h : List.Sublist ds₁ ds₂) :
    List.Sublist (traverseSpecSub g cd rc ds₁) (allFilePathsSub cd ds₂) := by
  match ds₁, ds₂, h with
  | [], [], .slnil =>
    simp only [traverseSpecSub, allFilePathsSub]
    exact List.Sublist.refl _
  | ds₁', a :: t₂, .cons _ h' =>
    simp only [allFilePathsSub]
    exact List.Sublist.trans (traverseSpecSub_sublist_all g cd rc h')
      (List.sublist_append_right _ _)
  | _ :: t₁, a :: t₂, .cons₂ _ h' =>
    simp only [traverseSpecSub, allFilePathsSub]
    exact List.Sublist.append
      (traverseSpec_sublist_all g (osPathJoin cd a.name) (relpathOfChild rc a.name) a)
      (traverseSpecSub_sublist_all g cd rc h')
termination_by sizeOf ds₂
decreasing_by
  all_goals simp
  all_goals omega
end

/-- Tree for the C2/C8 witnesses: a root file plus one subdirectory with
one file. -/
def fsW2 : FSEntry :=
  .dir "r" [.file "keep.txt" "" true, .dir "src" [.file "main.py" "" true] true] true

/-- C2: whenever `traverse` succeeds on a directory, its result is
exactly the non-ignored non-directory entries of the directory (as
absolute joined paths), followed by the traversal results of each
non-ignored subdirectory in listing order, flattened
(`traverseSpec`); and every element of the result is the absolute path of
an actual file of the tree — never a directory path.  (`cd ≠ ""` rules
out the degenerate empty root path, on which Python's truthiness test
`(e_path := os.path.join(...))` could silently drop entries.) -/
theorem traverse_files_then_subdirs (s : FileSelector) (cd rc : String)
    (d : FSEntry) (l : List String) (hcd : cd ≠ "")
    (h : FileSelector.traverse s cd rc d = .ok l) :
    l = traverseSpec s.ignorer cd rc d ∧ ∀ p ∈ l, p ∈ allFilePathsDir cd d := by
  have h1 := traverse_ok_eq_spec s cd rc d l hcd h
  refine ⟨h1, ?_⟩
  intro p hp
  rw [h1] at hp
  exact (traverseSpec_sublist_all s.ignorer cd rc d).mem hp

/-- Witness for C2 on `fsW2` with an empty registry: the traversal
returns the root file then the subdirectory's file, matching the
specification-side traversal, and both are file paths of the tree. -/
theorem traverse_files_then_subdirs_witness :
    (["/r/keep.txt", "/r/src/main.py"] : List String) =
        traverseSpec (GitIgnorer.mk []) "/r" "." fsW2 ∧
      ∀ p ∈ (["/r/keep.txt", "/r/src/main.py"] : List String),
        p ∈ allFilePathsDir "/r" fsW2 := by
  have h : FileSelector.traverse ⟨"/r", GitIgnorer.mk []⟩ "/r" "." fsW2 =
      .ok ["/r/keep.txt", "/r/src/main.py"] := by
    simp [FileSelector.traverse, FileSelector.traverseAll, selectDirs, selectFiles,
      fsW2, osPathJoin, endsWithSlash, dirQuery, fileQuery, FSEntry.name, FSEntry.isDir,
      GitIgnorer.ignore, GitIgnorer.ignoreAux, relpathOfChild]
  exact traverse_files_then_subdirs ⟨"/r", GitIgnorer.mk []⟩ "/r" "." fsW2 _ (by decide) h

/-- Engine for the C9 counterexample: compiles `["secret/"]` to a matcher
matching exactly the root-level directory query `/./secret/`. -/
def engineC9 : List String → String → Bool :=
  fun _ path => path == "/./secret/"

/-- Tree for the C9 counterexample: the `secret` directory cannot be
listed (`os.listdir`/`os.scandir` raise `OSError` on it). -/
def fsC9 : FSEntry :=
  .dir "r" [.file "keep.txt" "" true, .dir "secret" [.file "x" "" true] false] true

/-- The registry `from_git_root` builds over `fsC9`: only the root scope,
since `os.walk` silently skipped the unlistable `secret`. -/
def regC9 : GitIgnorer :=
  ⟨[("/", PathspecIgnorer.create engineC9 ["secret/"])]⟩

/-- C9 counterexample: `fsC9` contains a directory that cannot be listed,
yet neither the registry build nor the traversal raises an `IoError` and
the run persists a (partial) file list.  The pre-scan's `os.walk` swallows
the listing error (default `onerror=None`) and skips the subtree, and the
traversal never lists `secret` because its query `/./secret/` is ignored
and it is pruned — so `update_selected` succeeds and reaches the
persistence call, contradicting the claim that any unlistable directory
aborts the run before persistence. -/
theorem io_error_swallowed_cex :
    GitIgnorer.from_git_root engineC9 fsC9 (some ["secret/"]) = .ok regC9 ∧
    FileSelector.update_selected ⟨"/r", regC9⟩ fsC9 = .ok ["/r/keep.txt"] := by
  constructor
  · simp [GitIgnorer.from_git_root, collectGitignores, collectList, fsC9, regC9,
      findGitignore, fixpathOf, relpathOfChild]
  · simp [FileSelector.update_selected, FileSelector.get_all, select_files,
      FileSelector.traverse, FileSelector.traverseAll, selectDirs, selectFiles,
      fsC9, regC9, osPathJoin, endsWithSlash, dirQuery, fileQuery, FSEntry.name,
      FSEntry.isDir, GitIgnorer.ignore, GitIgnorer.ignoreAux, PathspecIgnorer.ignore,
      GitIgnoreSpec.match_file, PathspecIgnorer.create, GitIgnoreSpec.from_lines,
      strStartsWith, strStartsWith.go, engineC9, relpathOfChild]

/-- C9 amended: errors do propagate wherever they arise — an unreadable
`.gitignore` aborts the collection (and `from_git_root` propagates any
collection error), listing a non-listable directory aborts the traversal,
and `update_selected` reaches the persistence call exactly when the full
file list was produced, persisting it unchanged.  What the original claim
missed is that the pre-scan's `os.walk` skips unlistable directories
silently (see the counterexample): only a directory the *traversal*
actually lists aborts the run. -/
theorem io_error_propagation (s : FileSelector) (root : FSEntry) :
    (∀ e, s.get_all root = .error e → FileSelector.update_selected s root = .error e) ∧
    (∀ l, FileSelector.update_selected s root = .ok l → s.get_all root = .ok l) ∧
    (∀ rel nm cs c, findGitignore cs = some (c, false) →
      collectGitignores rel (.dir nm cs true) = .error .ioError) ∧
    (∀ engine xtra r e, collectGitignores "." r = .error e →
      GitIgnorer.from_git_root engine r xtra = .error e) ∧
    (∀ cd rc nm cs, FileSelector.traverse s cd rc (.dir nm cs false) = .error .ioError) ∧
    (∀ rel nm cs, collectGitignores rel (.dir nm cs false) = .ok []) := by
  refine ⟨?_, ?_, ?_, ?_, ?_, ?_⟩
  · intro e he
    simp [FileSelector.update_selected, he]
  · intro l hl
    simp only [FileSelector.update_selected] at hl
    cases hg : s.get_all root with
    | error e =>
      rw [hg] at hl
      exact absurd hl (by simp)
    | ok fs =>
      rw [hg] at hl
      simp only [select_files] at hl
      injection hl with hl
      subst hl
      rfl
  · intro rel nm cs c hfind
    simp [collectGitignores, hfind]
  · intro engine xtra r e hcol
    simp [GitIgnorer.from_git_root, hcol]
  · intro cd rc nm cs
    simp [FileSelector.traverse]
  · intro rel nm cs
    simp [collectGitignores]

/-- Witness for the amended C9: with an unlistable project root the
traversal fails with `IoError` and `update_selected` propagates it — no
persistence happens. -/
theorem io_error_propagation_witness :
    FileSelector.update_selected ⟨"/r", GitIgnorer.mk []⟩ (.dir "r" [] false) =
      .error .ioError := by
  have h : FileSelector.get_all ⟨"/r", GitIgnorer.mk []⟩ (.dir "r" [] false) =
      .error .ioError := by
    simp [FileSelector.get_all, FileSelector.traverse]
  exact (io_error_propagation ⟨"/r", GitIgnorer.mk []⟩ (.dir "r" [] false)).1 .ioError h

/-- The base onto which `os.path.join cd ·` grafts `'/' :: name`: the
current directory's characters, without a final separator if it carries
one. -/
def joinBase (cd : String) : List Char :=
  if endsWithSlash cd then cd.data.dropLast else cd.data

/-- Splitting a character list at its first separator is unambiguous when
neither candidate head contains the separator. -/
theorem sep_split_unique :
    ∀ {l₁ l₂ t₁ t₂ : List Char}, '/' ∉ l₁ → '/' ∉ l₂ →
      l₁ ++ '/' :: t₁ = l₂ ++ '/' :: t₂ → l₁ = l₂ ∧ t₁ = t₂ := by
  intro l₁
  induction l₁ with
  | nil =>
    intro l₂ t₁ t₂ h1 h2 h
    cases l₂ with
    | nil =>
      simp only [List.nil_append] at h
      exact ⟨rfl, ((List.cons.injEq _ _ _ _).mp h).2⟩
    | cons c l₂' =>
      simp only [List.nil_append, List.cons_append] at h
      have hc : c = '/' := ((List.cons.injEq _ _ _ _).mp h).1.symm
      exact absurd (hc ▸ List.mem_cons_self c l₂') h2
  | cons c l₁' ih =>
    intro l₂ t₁ t₂ h1 h2 h
    cases l₂ with
    | nil =>
      simp only [List.nil_append, List.cons_append] at h
      have hc : c = '/' := ((List.cons.injEq _ _ _ _).mp h).1
      exact absurd (hc ▸ List.mem_cons_self c l₁') h1
    | cons c₂ l₂' =>
      simp only [List.cons_append] at h
      obtain ⟨hc, h⟩ := (List.cons.injEq _ _ _ _).mp h
      have h1' : '/' ∉ l₁' := fun hm => h1 (List.mem_cons_of_mem _ hm)
      have h2' : '/' ∉ l₂' := fun hm => h2 (List.mem_cons_of_mem _ hm)
      obtain ⟨hl, ht⟩ := ih h1' h2' h
      exact ⟨by rw [hc, hl], ht⟩

/-- Character-level view of `os.path.join` for a nonempty left part: its
characters are the join base, a separator, then the name. -/
theorem osPathJoin_data (cd n : String) (hcd : cd ≠ "") :
    (osPathJoin cd n).data = joinBase cd ++ '/' :: n.data := by
  unfold osPathJoin joinBase
  rw [if_neg hcd]
  by_cases he : endsWithSlash cd
  · rw [if_pos he, if_pos he]
    have hlast : cd.data.getLast? = some '/' := by
      unfold endsWithSlash at he
      simpa using he
    obtain ⟨l', hl'⟩ := List.getLast?_eq_some_iff.mp hlast
    rw [String.data_append, hl']
    simp
  · rw [if_neg he, if_neg he]
    rw [String.data_append, String.data_append]
    simp

/-- A valid name is a nonempty list of characters without the
separator. -/
theorem validName_parts {n : String} (hn : validName n = true) :
    n.data ≠ [] ∧ '/' ∉ n.data := by
  rw [validName, Bool.and_eq_true] at hn
  obtain ⟨hn1, hn2⟩ := hn
  constructor
  · intro h0
    have h1 : n = "" := String.ext h0
    simp [h1] at hn1
  · intro hm
    have h2 : '/' ∉ n.data := by simpa using hn2
    exact h2 hm

/-- Joining a valid (nonempty, separator-free) name never produces a
separator-terminated path. -/
theorem endsWithSlash_osPathJoin (cd n : String) (hcd : cd ≠ "")
    (hn : validName n = true) : endsWithSlash (osPathJoin cd n) = false := by
  have hd := osPathJoin_data cd n hcd
  obtain ⟨hne, hns⟩ := validName_parts hn
  unfold endsWithSlash
  rw [hd]
  rw [show joinBase cd ++ '/' :: n.data = (joinBase cd ++ ['/']) ++ n.data by simp]
  rw [List.getLast?_append_of_ne_nil _ hne]
  cases hlast : n.data.getLast? with
  | none => simp
  | some c =>
    have hc : c ∈ n.data := List.mem_of_mem_getLast? (by simp [hlast])
    have : c ≠ '/' := by
      intro hc'
      subst hc'
      exact hns hc
    simp [this]

/-- The join base below a valid child directory extends the parent's join
base by the separator and the child's name. -/
theorem joinBase_osPathJoin (cd n : String) (hcd : cd ≠ "")
    (hn : validName n = true) :
    joinBase (osPathJoin cd n) = joinBase cd ++ '/' :: n.data := by
  have h1 : joinBase (osPathJoin cd n) = (osPathJoin cd n).data := by
    unfold joinBase
    rw [endsWithSlash_osPathJoin cd n hcd hn]
    simp
  rw [h1, osPathJoin_data cd n hcd]

/-- The filtered children of a directory node are smaller than the
node. -/
theorem sizeOf_filter_lt_dir (p : FSEntry → Bool) (nm : String)
    (entries : List FSEntry) (lb : Bool) :
    sizeOf (entries.filter p) < sizeOf (FSEntry.dir nm entries lb) := by
  have := sizeOf_filter_le p entries
  simp
  omega

/-- Well-formedness of an entry includes its own name's validity. -/
theorem entryWF_validName : ∀ {e : FSEntry}, entryWF e = true → validName e.name = true := by
  intro e h
  match e with
  | .file n c r => simpa [entryWF, FSEntry.name] using h
  | .dir n cs b =>
    simp only [entryWF, Bool.and_eq_true] at h
    simpa [FSEntry.name] using h.1

/-- Well-formedness of a directory entry: a valid name and a well-formed
listing. -/
theorem entryWF_dir {n : String} {cs : List FSEntry} {b : Bool}
    (h : entryWF (.dir n cs b) = true) : validName n = true ∧ levelWF cs = true := by
  simpa [entryWF, Bool.and_eq_true] using h

/-- A well-formed listing consists of well-formed entries with pairwise
distinct names. -/
theorem levelWF_parts : ∀ {l : List FSEntry}, levelWF l = true →
    (∀ e ∈ l, entryWF e = true) ∧ (l.map FSEntry.name).Nodup := by
  intro l
  induction l with
  | nil => intro _; exact ⟨by simp, by simp⟩
  | cons e rest ih =>
    intro h
    simp only [levelWF, Bool.and_eq_true] at h
    obtain ⟨⟨he, hall⟩, hrest⟩ := h
    obtain ⟨ih1, ih2⟩ := ih hrest
    refine ⟨?_, ?_⟩
    · intro e2 he2
      rcases List.mem_cons.mp he2 with he2 | he2
      · subst he2
        exact he
      · exact ih1 e2 he2
    · rw [List.map_cons, List.nodup_cons]
      refine ⟨?_, ih2⟩
      intro hmem
      obtain ⟨e2, he2, hne⟩ := List.mem_map.mp hmem
      rw [List.all_eq_true] at hall
      have h3 := hall e2 he2
      simp only [bne_iff_ne, ne_eq, decide_eq_true_eq] at h3
      exact h3 hne

mutual
/-- Every file path below a directory node starts with the node's join
base followed by a separator. -/
theorem allFilePathsDir_shape (cd : String) (d : FSEntry) (hcd : cd ≠ "")
    (hwf : entryWF d = true) :
    ∀ p ∈ allFilePathsDir cd d, ∃ u, p.data = joinBase cd ++ '/' :: u := by
  match d with
  | .file n c r => simp [allFilePathsDir]
  | .dir nm entries lb =>
    obtain ⟨hv, hl⟩ := entryWF_dir hwf
    obtain ⟨hent, hnames⟩ := levelWF_parts hl
    intro p hp
    simp only [allFilePathsDir] at hp
    rcases List.mem_append.mp hp with hp | hp
    · obtain ⟨e, he, hpe⟩ := List.mem_map.mp hp
      refine ⟨e.name.data, ?_⟩
      rw [← hpe]
      exact osPathJoin_data cd e.name hcd
    · obtain ⟨n2, t, _, hshape⟩ := allFilePathsSub_shape cd _ hcd
        (fun e he => hent e (List.mem_of_mem_filter he)) p hp
      exact ⟨n2.data ++ '/' :: t, hshape⟩
termination_by sizeOf d
decreasing_by
  exact sizeOf_filter_lt_dir _ _ _ _

/-- Every file path below one of the listed directories decomposes as the
parent's join base, a separator, that directory's name, a separator, and
a remainder. -/
theorem allFilePathsSub_shape (cd : String) (ds : List FSEntry) (hcd : cd ≠ "")
    (hwf : ∀ e ∈ ds, entryWF e = true) :
    ∀ p ∈ allFilePathsSub cd ds, ∃ n2 t, (∃ e ∈ ds, e.name = n2) ∧
      p.data = joinBase cd ++ '/' :: (n2.data ++ '/' :: t) := by
  match ds with
  | [] => simp [allFilePathsSub]
  | e :: rest =>
    intro p hp
    simp only [allFilePathsSub] at hp
    rcases List.mem_append.mp hp with hp | hp
    · have hwe : entryWF e = true := hwf e (List.mem_cons_self _ _)
      have hvn : validName e.name = true := entryWF_validName hwe
      obtain ⟨u, hu⟩ := allFilePathsDir_shape (osPathJoin cd e.name) e
        (osPathJoin_ne_empty hcd _) hwe p hp
      refine ⟨e.name, u, ⟨e, List.mem_cons_self _ _, rfl⟩, ?_⟩
      rw [hu, joinBase_osPathJoin cd e.name hcd hvn]
      simp
    · obtain ⟨n2, t, ⟨e2, he2, hn2⟩, hshape⟩ := allFilePathsSub_shape cd rest hcd
        (fun e2 he2 => hwf e2 (List.mem_cons_of_mem _ he2)) p hp
      exact ⟨n2, t, ⟨e2, List.mem_cons_of_mem _ he2, hn2⟩, hshape⟩
termination_by sizeOf ds
decreasing_by
  all_goals simp
  all_goals omega
end

mutual
/-- Below a well-formed directory node, all file paths are pairwise
distinct. -/
theorem allFilePathsDir_nodup (cd : String) (d : FSEntry) (hcd : cd ≠ "")
    (hwf : entryWF d = true) : (allFilePathsDir cd d).Nodup := by
  match d with
  | .file n c r => simp [allFilePathsDir]
  | .dir nm entries lb =>
    obtain ⟨hv, hl⟩ := entryWF_dir hwf
    obtain ⟨hent, hnames⟩ := levelWF_parts hl
    simp only [allFilePathsDir]
    refine List.Nodup.append ?_ ?_ ?_
    · show (List.map ((osPathJoin cd) ∘ FSEntry.name)
        (entries.filter fun e => !e.isDir)).Nodup
      rw [← List.map_map]
      refine List.Nodup.map_on ?_ ?_
      · intro x hx y hy hxy
        have hdx := osPathJoin_data cd x hcd
        have hdy := osPathJoin_data cd y hcd
        rw [hxy] at hdx
        rw [hdy] at hdx
        apply String.ext
        exact (List.cons.injEq _ _ _ _).mp (List.append_cancel_left hdx.symm) |>.2
      · exact hnames.sublist (List.Sublist.map _ (List.filter_sublist entries))
    · refine allFilePathsSub_nodup cd _ hcd ?_ ?_
      · intro e he
        exact hent e (List.mem_of_mem_filter he)
      · exact hnames.sublist (List.Sublist.map _ (List.filter_sublist entries))
    · intro p hpA hpB
      obtain ⟨e, he, hpe⟩ := List.mem_map.mp hpA
      have hve : validName e.name = true :=
        entryWF_validName (hent e (List.mem_of_mem_filter he))
      obtain ⟨n2, t, _, hshape⟩ := allFilePathsSub_shape cd _ hcd
        (fun e2 he2 => hent e2 (List.mem_of_mem_filter he2)) p hpB
      have hda : p.data = joinBase cd ++ '/' :: e.name.data := by
        rw [← hpe]
        exact osPathJoin_data cd e.name hcd
      rw [hda] at hshape
      have heq := (List.cons.injEq _ _ _ _).mp (List.append_cancel_left hshape) |>.2
      have hmem : '/' ∈ e.name.data := by
        rw [heq]
        exact List.mem_append.mpr (Or.inr (List.mem_cons_self _ _))
      exact (validName_parts hve).2 hmem
termination_by sizeOf d
decreasing_by
  all_goals exact sizeOf_filter_lt_dir _ _ _ _

/-- The flattened file paths below a list of well-formed entries with
distinct names are pairwise distinct. -/
theorem allFilePathsSub_nodup (cd : String) (ds : List FSEntry) (hcd : cd ≠ "")
    (hwf : ∀ e ∈ ds, entryWF e = true)
    (hnames : (ds.map FSEntry.name).Nodup) : (allFilePathsSub cd ds).Nodup := by
  match ds with
  | [] => simp [allFilePathsSub]
  | e :: rest =>
    simp only [allFilePathsSub]
    have hwe : entryWF e = true := hwf e (List.mem_cons_self _ _)
    have hve : validName e.name = true := entryWF_validName hwe
    rw [List.map_cons, List.nodup_cons] at hnames
    refine List.Nodup.append ?_ ?_ ?_
    · exact allFilePathsDir_nodup (osPathJoin cd e.name) e
        (osPathJoin_ne_empty hcd _) hwe
    · exact allFilePathsSub_nodup cd rest hcd
        (fun e2 he2 => hwf e2 (List.mem_cons_of_mem _ he2)) hnames.2
    · intro p hpH hpR
      obtain ⟨u, hu⟩ := allFilePathsDir_shape (osPathJoin cd e.name) e
        (osPathJoin_ne_empty hcd _) hwe p hpH
      rw [joinBase_osPathJoin cd e.name hcd hve] at hu
      obtain ⟨n3, t, ⟨e3, he3, hn3⟩, hshape⟩ := allFilePathsSub_shape cd rest hcd
        (fun e2 he2 => hwf e2 (List.mem_cons_of_mem _ he2)) p hpR
      rw [hu] at hshape
      rw [List.append_assoc, List.cons_append] at hshape
      have h2 := (List.cons.injEq _ _ _ _).mp (List.append_cancel_left hshape) |>.2
      have hv3 : '/' ∉ n3.data := by
        rw [← hn3]
        exact (validName_parts (entryWF_validName (hwf e3 (List.mem_cons_of_mem _ he3)))).2
      have h3 := sep_split_unique (validName_parts hve).2 hv3 h2
      have hee : e.name = n3 := String.ext h3.1
      apply hnames.1
      refine List.mem_map.mpr ⟨e3, he3, ?_⟩
      rw [hn3]
      exact hee.symm
termination_by sizeOf ds
decreasing_by
  all_goals simp
  all_goals omega
end

/-- Under nonempty current and relative directories the `files`
comprehension always succeeds (no file query can reach the root-path
assertion). -/
theorem selectFiles_total (g : GitIgnorer) (cd rc : String) (hcd : cd ≠ "")
    (hrc : rc ≠ "") :
    ∀ es : List FSEntry,
      selectFiles g cd rc es =
        .ok ((es.filter fun e =>
            !e.isDir && !registryIgnoresSpec g (fileQuery rc e.name)).map
          fun e => osPathJoin cd e.name) := by
  intro es
  induction es with
  | nil => simp [selectFiles]
  | cons e rest ih =>
    rcases e with ⟨n, c, r⟩ | ⟨n, cs, b⟩
    · have hne : osPathJoin cd n ≠ "" := osPathJoin_ne_empty hcd n
      have hrn : osPathJoin rc n ≠ "" := osPathJoin_ne_empty hrc n
      have hq := fileQuery_ne_root rc n hrn
      have hok := GitIgnorer.ignore_ok g (fileQuery rc n) hq.1 hq.2
      cases hig : registryIgnoresSpec g (fileQuery rc n)
      · rw [hig] at hok
        simp [selectFiles, FSEntry.isDir, FSEntry.name, hne, ih, hok, hig, List.filter_cons]
      · rw [hig] at hok
        simp [selectFiles, FSEntry.isDir, FSEntry.name, hne, ih, hok, hig, List.filter_cons]
    · have hne : osPathJoin cd n ≠ "" := osPathJoin_ne_empty hcd n
      simp [selectFiles, FSEntry.isDir, FSEntry.name, hne, ih, List.filter_cons]

/-- Members of a fully listable listing are fully listable. -/
theorem allListableList_mem : ∀ {cs : List FSEntry},
    allListableList cs = true → ∀ c ∈ cs, allListable c = true := by
  intro cs
  induction cs with
  | nil => intro _ c hc; cases hc
  | cons e rest ih =>
    intro h c hc
    simp only [allListableList, Bool.and_eq_true] at h
    rcases List.mem_cons.mp hc with hc | hc
    · subst hc
      exact h.1
    · exact ih h.2 c hc

/-- A listable directory's flag and its children's listability. -/
theorem allListable_parts {n : String} {cs : List FSEntry} {b : Bool}
    (h : allListable (.dir n cs b) = true) :
    b = true ∧ ∀ c ∈ cs, allListable c = true := by
  simp only [allListable, Bool.and_eq_true] at h
  exact ⟨h.1, allListableList_mem h.2⟩

/-- The child relative path of a valid name is never empty. -/
theorem relpathOfChild_ne_empty {rc n : String} (hrc : rc ≠ "")
    (hn : validName n = true) : relpathOfChild rc n ≠ "" := by
  unfold relpathOfChild
  obtain ⟨hne, _⟩ := validName_parts hn
  split
  · intro h0
    exact hne (congrArg String.data h0)
  · intro h0
    rcases append_eq_empty h0 with ⟨h1, _⟩
    exact absurd (append_eq_empty h1).1 hrc

mutual
/-- Under a registry that ignores nothing, the traversal of a well-formed
fully listable directory succeeds and returns every file of the tree. -/
theorem traverse_no_ignores (s : FileSelector)
    (hig : ∀ q, registryIgnoresSpec s.ignorer q = false) (d : FSEntry) :
    ∀ (cd rc nm : String) (entries : List FSEntry), d = .dir nm entries true →
      cd ≠ "" → rc ≠ "" → levelWF entries = true →
      (∀ e ∈ entries, allListable e = true) →
      FileSelector.traverse s cd rc d = .ok (allFilePathsDir cd d) := by
  intro cd rc nm entries hd hcd hrc hwf hlist
  rw [hd]
  obtain ⟨hent, hnames⟩ := levelWF_parts hwf
  have hfd : (entries.filter fun e =>
      e.isDir && !registryIgnoresSpec s.ignorer (dirQuery rc e.name)) =
      entries.filter fun e => e.isDir := by
    apply List.filter_congr
    intro e he
    simp [hig]
  have hff : (entries.filter fun e =>
      !e.isDir && !registryIgnoresSpec s.ignorer (fileQuery rc e.name)) =
      entries.filter fun e => !e.isDir := by
    apply List.filter_congr
    intro e he
    simp [hig]
  simp only [FileSelector.traverse, if_true]
  rw [selectDirs_ok s.ignorer cd rc hcd entries, hfd]
  split
  next e heq => exact absurd heq (by simp)
  next dirs heq =>
    injection heq with heq
    subst heq
    rw [selectFiles_total s.ignorer cd rc hcd hrc entries, hff]
    have hta : FileSelector.traverseAll s cd rc (entries.filter fun e => e.isDir) =
        .ok (allFilePathsSub cd (entries.filter fun e => e.isDir)) := by
      refine traverseAll_no_ignores s hig (entries.filter fun e => e.isDir) cd rc hcd hrc ?_
      intro e he
      exact ⟨List.of_mem_filter he, hent e (List.mem_of_mem_filter he),
        hlist e (List.mem_of_mem_filter he)⟩
    rw [hta]
    simp only [allFilePathsDir]
termination_by sizeOf d
decreasing_by
  subst_vars
  exact sizeOf_filter_lt_dir _ _ _ _

/-- Under a registry that ignores nothing, recursing into a list of
well-formed, fully listable directories succeeds and returns all their
files. -/
theorem traverseAll_no_ignores (s : FileSelector)
    (hig : ∀ q, registryIgnoresSpec s.ignorer q = false) (ds : List FSEntry)
    (cd rc : String) (hcd : cd ≠ "") (hrc : rc ≠ "")
    (hds : ∀ e ∈ ds, e.isDir = true ∧ entryWF e = true ∧ allListable e = true) :
    FileSelector.traverseAll s cd rc ds = .ok (allFilePathsSub cd ds) := by
  match ds with
  | [] => simp [FileSelector.traverseAll, allFilePathsSub]
  | .file n c r :: rest =>
    obtain ⟨hdir, hwfe, hle⟩ := hds _ (List.mem_cons_self _ _)
    simp [FSEntry.isDir] at hdir
  | .dir n cs b :: rest =>
    obtain ⟨hdir, hwfe, hle⟩ := hds _ (List.mem_cons_self _ _)
    obtain ⟨hb, hcs⟩ := allListable_parts hle
    subst hb
    obtain ⟨hvn, hlcs⟩ := entryWF_dir hwfe
    have h1 : FileSelector.traverse s (osPathJoin cd (FSEntry.dir n cs true).name)
        (relpathOfChild rc (FSEntry.dir n cs true).name) (.dir n cs true) =
        .ok (allFilePathsDir (osPathJoin cd (FSEntry.dir n cs true).name) (.dir n cs true)) := by
      refine traverse_no_ignores s hig (.dir n cs true) _ _ n cs rfl
        (osPathJoin_ne_empty hcd _) ?_ hlcs hcs
      simp only [FSEntry.name]
      exact relpathOfChild_ne_empty hrc hvn
    have h2 := traverseAll_no_ignores s hig rest cd rc hcd hrc
      (fun e2 he2 => hds e2 (List.mem_cons_of_mem _ he2))
    simp only [FileSelector.traverseAll]
    rw [h1, h2]
    simp only [allFilePathsSub]
termination_by sizeOf ds
decreasing_by
  all_goals simp
  all_goals omega
end

/-- A subtree without `.gitignore` files contributes no pattern source to
the listing scan. -/
theorem findGitignore_none : ∀ {cs : List FSEntry},
    (∀ e ∈ cs, noGitignores e = true) → findGitignore cs = none := by
  intro cs
  induction cs with
  | nil => intro _; rfl
  | cons e rest ih =>
    intro h
    rcases e with ⟨n, c, r⟩ | ⟨n, cs', b⟩
    · have h1 := h _ (List.mem_cons_self _ _)
      simp only [noGitignores, bne_iff_ne, ne_eq] at h1
      simp only [findGitignore, if_neg h1]
      exact ih fun e2 he2 => h e2 (List.mem_cons_of_mem _ he2)
    · simp only [findGitignore]
      exact ih fun e2 he2 => h e2 (List.mem_cons_of_mem _ he2)

/-- Members of a gitignore-free listing are gitignore-free. -/
theorem noGitignoresList_mem : ∀ {cs : List FSEntry},
    noGitignoresList cs = true → ∀ c ∈ cs, noGitignores c = true := by
  intro cs
  induction cs with
  | nil => intro _ c hc; cases hc
  | cons e rest ih =>
    intro h c hc
    simp only [noGitignoresList, Bool.and_eq_true] at h
    rcases List.mem_cons.mp hc with hc | hc
    · subst hc
      exact h.1
    · exact ih h.2 c hc

/-- A gitignore-free directory's children are gitignore-free. -/
theorem noGitignores_parts {n : String} {cs : List FSEntry} {b : Bool}
    (h : noGitignores (.dir n cs b) = true) : ∀ c ∈ cs, noGitignores c = true := by
  simp only [noGitignores] at h
  exact noGitignoresList_mem h

mutual
/-- Scanning a tree without any `.gitignore` collects nothing. -/
theorem collect_no_gitignores (rel : String) (d : FSEntry)
    (h : noGitignores d = true) : collectGitignores rel d = .ok [] := by
  match d with
  | .file n c r => simp [collectGitignores]
  | .dir n cs b =>
    cases b
    · simp [collectGitignores]
    · have hfind := findGitignore_none (noGitignores_parts h)
      have hlist := collectList_no_gitignores rel cs (noGitignores_parts h)
      simp [collectGitignores, hfind, hlist]
termination_by sizeOf d
decreasing_by
  all_goals simp
  all_goals omega

/-- Companion of `collect_no_gitignores` for a list of entries. -/
theorem collectList_no_gitignores (rel : String) (l : List FSEntry)
    (h : ∀ e ∈ l, noGitignores e = true) : collectList rel l = .ok [] := by
  match l with
  | [] => rfl
  | .file n c r :: rest =>
    simp only [collectList]
    exact collectList_no_gitignores rel rest fun e he => h e (List.mem_cons_of_mem _ he)
  | .dir n cs b :: rest =>
    have h1 := collect_no_gitignores (relpathOfChild rel n) (.dir n cs b)
      (h _ (List.mem_cons_self _ _))
    have h2 := collectList_no_gitignores rel rest fun e he => h e (List.mem_cons_of_mem _ he)
    simp only [collectList]
    rw [h1, h2]
    rfl
termination_by sizeOf l
decreasing_by
  all_goals simp
  all_goals omega
end

/-- Tree for the C8 counterexample: a single directory `build` holding
`out.txt`. -/
def fsC8 : FSEntry :=
  .dir "r" [.dir "build" [.file "out.txt" "" true] true] true

/-- C8 counterexample: under the registry whose only matcher matches
exactly the directory query `/./build/`, the file `out.txt` is not
ignored by any scope (its own query `/build/out.txt` matches no scope),
yet the traversal returns the empty list: the file appears zero times,
not exactly once, because its parent directory is pruned.  "Not ignored
by any scope" therefore does not suffice for inclusion. -/
theorem not_ignored_file_pruned_cex :
    fileQuery (relpathOfChild "." "build") "out.txt" = "/build/out.txt" ∧
    registryIgnoresSpec regDotQuery "/build/out.txt" = false ∧
    FileSelector.traverse ⟨"/r", regDotQuery⟩ "/r" "." fsC8 = .ok [] ∧
    "/r/build/out.txt" ∈ allFilePathsDir "/r" fsC8 := by
  refine ⟨by decide, by decide, ?_, ?_⟩
  · simp [FileSelector.traverse, FileSelector.traverseAll, selectDirs, selectFiles,
      fsC8, regDotQuery, osPathJoin, endsWithSlash, dirQuery, fileQuery, FSEntry.name,
      FSEntry.isDir, GitIgnorer.ignore, GitIgnorer.ignoreAux, PathspecIgnorer.ignore,
      GitIgnoreSpec.match_file, strStartsWith, strStartsWith.go, relpathOfChild]
  · simp [allFilePathsDir, allFilePathsSub, fsC8, osPathJoin, endsWithSlash,
      FSEntry.name, FSEntry.isDir]

/-- C8 (amended): every path a successful traversal of a well-formed
listing returns appears in the result exactly once; and — the round-trip
— over a tree with no `.gitignore` files and no extra root patterns
(whose engine compiles the empty pattern list to a matcher that matches
nothing), the traversal with the registry `from_git_root` builds
succeeds and returns every file of the tree.  (The claim's "every path
not ignored by any scope is included" fails because of pruning, see the
counterexample; inclusion additionally requires that no ancestor
directory is ignored, which is captured here by `traverseSpec` through
C2 and by the no-pattern round-trip.) -/
theorem traverse_exactly_once_and_roundtrip
    (s : FileSelector) (cd rc nm : String) (entries : List FSEntry) (l : List String)
    (hcd : cd ≠ "") (hwf : levelWF entries = true)
    (h : FileSelector.traverse s cd rc (.dir nm entries true) = .ok l) :
    (∀ p ∈ l, l.count p = 1) ∧
    ∀ (engine : List String → String → Bool) (g2 : GitIgnorer),
      (∀ q, engine [] q = false) →
      noGitignores (.dir nm entries true) = true →
      allListable (.dir nm entries true) = true →
      GitIgnorer.from_git_root engine (.dir nm entries true) none = .ok g2 →
      rc ≠ "" →
      FileSelector.traverse ⟨cd, g2⟩ cd rc (.dir nm entries true) =
        .ok (allFilePathsDir cd (.dir nm entries true)) := by
  constructor
  · have h1 := traverse_ok_eq_spec s cd rc _ l hcd h
    have hsl := traverseSpec_sublist_all s.ignorer cd rc (.dir nm entries true)
    have hwfd : entryWF (.dir "x" entries true) = true := by
      simp only [entryWF, Bool.and_eq_true]
      exact ⟨by decide, hwf⟩
    have hnd : (allFilePathsDir cd (.dir nm entries true)).Nodup := by
      have heq : allFilePathsDir cd (.dir nm entries true) =
          allFilePathsDir cd (.dir "x" entries true) := by
        simp only [allFilePathsDir]
      rw [heq]
      exact allFilePathsDir_nodup cd _ hcd hwfd
    have hln : l.Nodup := by
      rw [h1]
      exact hnd.sublist hsl
    intro p hp
    exact List.count_eq_one_of_mem hln hp
  · intro engine g2 heng hng hal hg2 hrc
    have hcol : collectGitignores "." (.dir nm entries true) = .ok [] :=
      collect_no_gitignores "." _ hng
    simp only [GitIgnorer.from_git_root] at hg2
    rw [hcol] at hg2
    injection hg2 with hg2
    subst hg2
    have hig : ∀ q, registryIgnoresSpec
        (GitIgnorer.mk [("/", PathspecIgnorer.create engine (Option.getD none []))]) q
          = false := by
      intro q
      simp [registryIgnoresSpec, scopeMatches, PathspecIgnorer.create,
        GitIgnoreSpec.from_lines, GitIgnoreSpec.match_file, heng]
    refine traverse_no_ignores ⟨cd, _⟩ hig (.dir nm entries true) cd rc nm entries rfl
      hcd hrc hwf ?_
    exact (allListable_parts hal).2

/-- Witness for the amended C8 on `fsW2` with an empty registry: the two
files appear exactly once each, and the round-trip with the
`from_git_root` registry over this gitignore-free tree returns every
file. -/
theorem traverse_exactly_once_and_roundtrip_witness :
    (∀ p ∈ (["/r/keep.txt", "/r/src/main.py"] : List String),
      (["/r/keep.txt", "/r/src/main.py"] : List String).count p = 1) ∧
    FileSelector.traverse ⟨"/r", GitIgnorer.mk [("/", PathspecIgnorer.create (fun _ _ => false) [])]⟩
        "/r" "." fsW2 = .ok (allFilePathsDir "/r" fsW2) := by
  have h : FileSelector.traverse ⟨"/r", GitIgnorer.mk []⟩ "/r" "." fsW2 =
      .ok ["/r/keep.txt", "/r/src/main.py"] := by
    simp [FileSelector.traverse, FileSelector.traverseAll, selectDirs, selectFiles,
      fsW2, osPathJoin, endsWithSlash, dirQuery, fileQuery, FSEntry.name, FSEntry.isDir,
      GitIgnorer.ignore, GitIgnorer.ignoreAux, relpathOfChild]
  have hg2 : GitIgnorer.from_git_root (fun _ _ => false) fsW2 none =
      .ok (GitIgnorer.mk [("/", PathspecIgnorer.create (fun _ _ => false) [])]) := by
    simp [GitIgnorer.from_git_root, collectGitignores, collectList, fsW2,
      findGitignore, fixpathOf, relpathOfChild]
  have H := traverse_exactly_once_and_roundtrip ⟨"/r", GitIgnorer.mk []⟩ "/r" "." "r"
    [.file "keep.txt" "" true, .dir "src" [.file "main.py" "" true] true]
    ["/r/keep.txt", "/r/src/main.py"] (by decide) (by decide) h
  exact ⟨H.1, H.2 (fun _ _ => false) _ (fun q => rfl) (by decide) (by decide) hg2 (by decide)⟩
